import Mathlib

/-!
Verification development for the believer repository: a sparse GF2
parity-check matrix engine, an erasure decoder, and a Monte-Carlo
simulation harness.  The Rust sources under src/ are embedded shallowly:
machine integers (usize, u64) become Nat, panics become Option results,
and the stateful construction loop becomes an explicit fold.
-/

namespace Believer

/-- Sorting applied when a check is stored (`check.sort()` inside
`add_bit_indices` in src/parity_check_matrix/mod.rs). -/
def sortList (l : List Nat) : List Nat := l.insertionSort (· ≤ ·)

/-- The sparse parity check matrix, from src/parity_check_matrix/mod.rs:
a flattened list of bit indices plus an offset table. -/
structure ParityCheckMatrix where
  check_ranges : List Nat
  bit_indices : List Nat
  n_bits : Nat
deriving DecidableEq, Repr

namespace ParityCheckMatrix

/-- `ParityCheckMatrix::new`. -/
def new : ParityCheckMatrix := ⟨[], [], 0⟩

/-- `ParityCheckMatrix::with_n_bits`. -/
def with_n_bits (n_bits : Nat) : ParityCheckMatrix := ⟨[], [], n_bits⟩

/-- One iteration of `fill_with`: `add_check` pushes one offset entry
(`add_check_range`) and then appends the sorted bit indices
(`add_bit_indices`).  Note the offset entry is pushed unconditionally,
even for an empty check. -/
def add_check (m : ParityCheckMatrix) (check : List Nat) : ParityCheckMatrix :=
  { m with
    check_ranges := m.check_ranges ++ [m.bit_indices.length + check.length],
    bit_indices := m.bit_indices ++ sortList check }

/-- The unchecked body of `with_checks`: `init_bit_indices` and
`init_check_ranges` reset the two vectors (the offset table starts at
`[0]`) and `fill_with` folds `add_check` over the given checks.  When
`checks` is empty the matrix is returned unchanged, as in the source. -/
def setChecks (m : ParityCheckMatrix) (checks : List (List Nat)) : ParityCheckMatrix :=
  if checks.isEmpty then m
  else List.foldl add_check { m with check_ranges := [0], bit_indices := [] } checks

/-- `is_out_of_bounds`: some bit of the check is `>= n_bits`. -/
def is_oob_check (m : ParityCheckMatrix) (check : List Nat) : Bool :=
  check.any (fun bit => m.n_bits ≤ bit)

/-- `some_checks_are_out_of_bounds`. -/
def some_checks_oob (m : ParityCheckMatrix) (checks : List (List Nat)) : Bool :=
  checks.any (fun check => m.is_oob_check check)

/-- `with_checks`; the `panic!("some checks are out of bounds")` is
modelled as `none`. -/
def with_checks (m : ParityCheckMatrix) (checks : List (List Nat)) :
    Option ParityCheckMatrix :=
  if m.some_checks_oob checks then none else some (m.setChecks checks)

/-- `get_n_bits`. -/
def get_n_bits (m : ParityCheckMatrix) : Nat := m.n_bits

/-- `get_n_checks`: one less than the offset-table length, or 0 when the
table is empty. -/
def get_n_checks (m : ParityCheckMatrix) : Nat :=
  if 0 < m.check_ranges.length then m.check_ranges.length - 1 else 0

/-- `get_n_edges`. -/
def get_n_edges (m : ParityCheckMatrix) : Nat := m.bit_indices.length

/-- `get_check`: `Some` slice of the flattened storage delimited by two
consecutive offsets, `None` when the index is out of range. -/
def get_check (m : ParityCheckMatrix) (check : Nat) : Option (List Nat) :=
  match m.check_ranges[check]?, m.check_ranges[check + 1]? with
  | some s, some e => some ((m.bit_indices.drop s).take (e - s))
  | _, _ => none

/-- `get_check` with the empty check as default, convenient total form. -/
def getCheckD (m : ParityCheckMatrix) (i : Nat) : List Nat := (m.get_check i).getD []

/-- The list of all checks, in order: the semantics of `checks_iter`
(its doc test equates successive `next()` with `get_check 0`,
`get_check 1`, ..., `None`). -/
def checksOf (m : ParityCheckMatrix) : List (List Nat) :=
  (List.range m.get_n_checks).map m.getCheckD

/-- `keep`: restrict every check to the given bit positions (membership
test `bits.iter().any(|b| b == bit)`) and rebuild over the same declared
bit count.  The rebuild goes through the unchecked construction body:
the bounds test of `with_checks` cannot fire because every kept index is
one of the stored indices. -/
def keep (m : ParityCheckMatrix) (bits : List Nat) : ParityCheckMatrix :=
  (with_n_bits m.get_n_bits).setChecks
    (m.checksOf.map (fun check => check.filter (fun bit => bits.contains bit)))

/-- `without`: the source computes the complement of `bits` inside the
hard-coded range `(0..9)`, not against the matrix's own bit count. -/
def without (m : ParityCheckMatrix) (bits : List Nat) : ParityCheckMatrix :=
  m.keep ((List.range 9).filter (fun x => ¬ bits.contains x))

/-- Modelled from the spec: the `Transposer` source file is not under
src/.  Per the spec, the output's bit count equals the input's check
count, the output has one check per input bit, and bit `b` is a member
of output-check `c` iff input-check `b` contains bit `c`.  The model is
validated below against the doc test of `get_transposed_matrix` in
src/parity_check_matrix/mod.rs. -/
def get_transposed_matrix (m : ParityCheckMatrix) : ParityCheckMatrix :=
  (with_n_bits m.get_n_checks).setChecks
    ((List.range m.get_n_bits).map (fun c =>
      (List.range m.get_n_checks).filter (fun b => (m.getCheckD b).contains c)))

/-- Modelled from the spec: the `Concatener` source file is not under
src/.  Per the spec each output check is the union of the left check's
bits and the right check's bits shifted by the left bit count; per the
doc test of `get_horizontal_concat_with` in src/parity_check_matrix/mod.rs
(left operand with 2 checks, right with 3, result with 3) the output has
one check per index below the larger of the two check counts, a missing
operand check contributing nothing. -/
def get_horizontal_concat_with (l r : ParityCheckMatrix) : ParityCheckMatrix :=
  (with_n_bits (l.get_n_bits + r.get_n_bits)).setChecks
    ((List.range (max l.get_n_checks r.get_n_checks)).map (fun i =>
      l.getCheckD i ++ (r.getCheckD i).map (fun b => b + l.get_n_bits)))

end ParityCheckMatrix

/-- Modelled from the spec: the `Ranker` source file is not under src/.
Rows are sorted sets of active column indices; the spec's XOR-combination
is the symmetric difference, kept in sorted-set representation. -/
def symDiff (xs ys : List Nat) : List Nat :=
  sortList (xs.filter (fun z => ¬ ys.contains z) ++ ys.filter (fun z => ¬ xs.contains z))

/-- Modelled from the spec: repeatedly XOR-combine a row against any
established pivot row sharing its current leading (smallest, i.e. head)
column, until the row becomes empty or no pivot shares its lead.  The
fuel argument makes the loop structurally recursive; `pivots.length + 1`
units are proved sufficient below whenever pivot leads are distinct. -/
def reduceRowFuel (pivots : List (List Nat)) : Nat → List Nat → List Nat
  | 0, row => row
  | fuel + 1, row =>
    match row with
    | [] => []
    | lead :: _ =>
      match pivots.find? (fun p => p.head? == some lead) with
      | none => row
      | some p => reduceRowFuel pivots fuel (symDiff row p)

/-- Modelled from the spec: reduction of one row against the pivots. -/
def reduceRow (pivots : List (List Nat)) (row : List Nat) : List Nat :=
  reduceRowFuel pivots (pivots.length + 1) row

/-- Modelled from the spec: a fully reduced nonempty row is promoted as
a new pivot; an emptied row is linearly dependent and discarded. -/
def promoteRow (pivots : List (List Nat)) (row : List Nat) : List (List Nat) :=
  let reduced := reduceRow pivots row
  if reduced.isEmpty then pivots else pivots ++ [reduced]

/-- Modelled from the spec: GF2 rank by sparse Gaussian elimination; the
rank is the number of pivot rows produced (`get_rank` in the source
delegates to the missing `Ranker`; the scratch-buffer plumbing of
`rank_mut` does not affect the returned value and is not modelled). -/
def ParityCheckMatrix.get_rank (m : ParityCheckMatrix) : Nat :=
  (m.checksOf.foldl promoteRow []).length

/-- `ErasureResult` from the classical decoder module. -/
inductive ErasureResult
  | Success
  | Failure
deriving DecidableEq, Repr

/-- Rust `f64` values relevant to the erasure decoder, modelled as
`Option ℚ`: `some q` is a finite double of value `q` and `none` is NaN.
IEEE comparisons on doubles return false whenever an operand is NaN. -/
abbrev F64 := Option ℚ

/-- The NaN double. -/
def f64nan : F64 := none

/-- IEEE `<` on doubles: false when either operand is NaN. -/
def f64lt : F64 → F64 → Bool
  | some a, some b => a < b
  | _, _ => false

/-- IEEE `>` on doubles: false when either operand is NaN. -/
def f64gt : F64 → F64 → Bool
  | some a, some b => b < a
  | _, _ => false

/-- The erasure decoder (src/classical/decoders/erasure.rs): a bound
code and an erasure probability.  The reusable scratch buffers
(`Ressources`) are allocation details that never influence a decoding
outcome and are not modelled. -/
structure ErasureDecoder where
  code : ParityCheckMatrix
  erasure_prob : F64
deriving DecidableEq, Repr

namespace ErasureDecoder

/-- `ErasureDecoder::with_prob`; the `panic!("invalid probability")` is
modelled as `none`. -/
def with_prob (p : F64) : Option ErasureDecoder :=
  if f64lt p (some 0) || f64gt p (some 1) then none
  else some { code := ParityCheckMatrix.new, erasure_prob := p }

/-- `Decoder::for_code` for the erasure decoder: bind the given code. -/
def for_code (d : ErasureDecoder) (code : ParityCheckMatrix) : ErasureDecoder :=
  { d with code := code }

/-- `ErasureDecoder::decode`: keep only the erased columns, compute the
rank, succeed iff `error.len() - erased_rank == 0`.  The usize
subtraction is modelled by truncated Nat subtraction; the rank of the
kept submatrix never exceeds `error.length` (proved below), so the
underflow case never arises. -/
def decode (d : ErasureDecoder) (error : List Nat) : ErasureResult :=
  if error.length - (d.code.keep error).get_rank = 0 then ErasureResult.Success
  else ErasureResult.Failure

end ErasureDecoder

/-- `SimulationResult` (src/classical/decoders/simulation_results.rs);
the u64 counters are modelled as Nat. -/
structure SimulationResult where
  n_successes : Nat
  n_failures : Nat
deriving DecidableEq, Repr

namespace SimulationResult

/-- `SimulationResult::new`. -/
def new : SimulationResult := ⟨0, 0⟩

/-- `add_decoding_result`, abstracted over the decoding result's
`is_success()` value. -/
def add_decoding_result (r : SimulationResult) (is_success : Bool) : SimulationResult :=
  if is_success then { r with n_successes := r.n_successes + 1 }
  else { r with n_failures := r.n_failures + 1 }

/-- `has_not_at_least_one_success_and_one_failure`. -/
def has_not_at_least_one_success_and_one_failure (r : SimulationResult) : Bool :=
  r.n_successes == 0 || r.n_failures == 0

/-- `combine_with`. -/
def combine_with (r o : SimulationResult) : SimulationResult :=
  ⟨r.n_successes + o.n_successes, r.n_failures + o.n_failures⟩

/-- `get_n_successes`. -/
def get_n_successes (r : SimulationResult) : Nat := r.n_successes

/-- `get_n_failures`. -/
def get_n_failures (r : SimulationResult) : Nat := r.n_failures

end SimulationResult

/-- The body of `simulate_thread_until_one_event_is_found`
(src/decoders/n_events_simulator.rs): while the local result lacks one of
the two outcome classes, decode one more sampled error and tally it.  The
decoder-and-rng pipeline `decode_random_error_with_rng` is abstracted as
the deterministic outcome stream `outcomes`; the loop may not terminate,
so it is run on fuel and returns `none` when the fuel is exhausted before
the stopping condition holds. -/
def simulateThread (outcomes : Nat → Bool) : Nat → Nat → SimulationResult → Option SimulationResult
  | 0, _, acc =>
    if acc.has_not_at_least_one_success_and_one_failure then none else some acc
  | fuel + 1, t, acc =>
    if acc.has_not_at_least_one_success_and_one_failure then
      simulateThread outcomes fuel (t + 1) (acc.add_decoding_result (outcomes t))
    else some acc

/-- One trial stream, started from the empty local result. -/
def simulate_thread_until_one_event_is_found (outcomes : Nat → Bool) (fuel : Nat) :
    Option SimulationResult :=
  simulateThread outcomes fuel 0 SimulationResult.new

/-- The per-stream results of `run_the_simulation`, in stream order;
`none` if some stream fails to finish within its fuel. -/
def collectThreadResults (outcomes : Nat → Nat → Bool) (fuel : Nat) :
    Nat → Option (List SimulationResult)
  | 0 => some []
  | n + 1 =>
    match collectThreadResults outcomes fuel n,
        simulate_thread_until_one_event_is_found (outcomes n) fuel with
    | some rs, some r => some (rs ++ [r])
    | _, _ => none

/-- `run_the_simulation`: sum the per-stream success and failure counts
into the aggregated result. -/
def simulate_until_n_events_are_found (outcomes : Nat → Nat → Bool) (n_events fuel : Nat) :
    Option SimulationResult :=
  (collectThreadResults outcomes fuel n_events).map
    (fun rs => ⟨(rs.map SimulationResult.n_successes).sum, (rs.map SimulationResult.n_failures).sum⟩)

/-! Basic facts about `sortList`. -/

theorem sortList_perm (l : List Nat) : (sortList l).Perm l :=
  List.perm_insertionSort _ l

theorem mem_sortList {l : List Nat} {x : Nat} : x ∈ sortList l ↔ x ∈ l :=
  List.mem_insertionSort _

theorem length_sortList (l : List Nat) : (sortList l).length = l.length :=
  List.length_insertionSort _ l

theorem sorted_sortList (l : List Nat) : List.Sorted (· ≤ ·) (sortList l) :=
  List.sorted_insertionSort _ l

theorem nodup_sortList {l : List Nat} (h : l.Nodup) : (sortList l).Nodup :=
  (sortList_perm l).nodup_iff.mpr h

theorem sortList_eq_of_sorted {l : List Nat} (h : List.Sorted (· ≤ ·) l) : sortList l = l :=
  h.insertionSort_eq

theorem sortList_idem (l : List Nat) : sortList (sortList l) = sortList l :=
  sortList_eq_of_sorted (sorted_sortList l)

theorem sorted_lt_of_le_nodup {l : List Nat} (hs : List.Sorted (· ≤ ·) l) (hn : l.Nodup) :
    List.Sorted (· < ·) l :=
  (hs.and hn).imp (fun h => lt_of_le_of_ne h.1 h.2)

theorem sorted_lt_sortList {l : List Nat} (h : l.Nodup) : List.Sorted (· < ·) (sortList l) :=
  sorted_lt_of_le_nodup (sorted_sortList l) (nodup_sortList h)

/-! Characterization of the construction fold. -/

/-- Partial sums used to describe the offset table produced by the fold. -/
def cumulFrom (base : Nat) : List Nat → List Nat
  | [] => []
  | l :: ls => (base + l) :: cumulFrom (base + l) ls

/-- Sum of the first `i` entries of a list. -/
def prefixSum : List Nat → Nat → Nat
  | _, 0 => 0
  | [], _ + 1 => 0
  | l :: ls, i + 1 => l + prefixSum ls i

theorem length_cumulFrom (ls : List Nat) : ∀ base, (cumulFrom base ls).length = ls.length := by
  induction ls with
  | nil => intro base; rfl
  | cons l ls ih => intro base; simp [cumulFrom, ih]

theorem cumulFrom_getElem? (ls : List Nat) :
    ∀ base i, i < ls.length → (cumulFrom base ls)[i]? = some (base + prefixSum ls (i + 1)) := by
  induction ls with
  | nil => intro base i h; simp at h
  | cons l ls ih =>
    intro base i h
    cases i with
    | zero => simp [cumulFrom, prefixSum]
    | succ i =>
      have hi : i < ls.length := by simpa using h
      simp only [cumulFrom, List.getElem?_cons_succ, ih (base + l) i hi, prefixSum]
      congr 1
      omega

theorem prefixSum_succ (ls : List Nat) :
    ∀ i, i < ls.length → prefixSum ls (i + 1) = prefixSum ls i + ls.getD i 0 := by
  induction ls with
  | nil => intro i h; simp at h
  | cons l ls ih =>
    intro i h
    cases i with
    | zero => simp [prefixSum]
    | succ i =>
      have hi : i < ls.length := by simpa using h
      simp only [prefixSum, ih i hi, List.getD_cons_succ]
      omega

namespace ParityCheckMatrix

theorem foldl_add_check (cs : List (List Nat)) :
    ∀ st : ParityCheckMatrix,
      List.foldl add_check st cs =
        ⟨st.check_ranges ++ cumulFrom st.bit_indices.length (cs.map List.length),
          st.bit_indices ++ (cs.map sortList).flatten, st.n_bits⟩ := by
  induction cs with
  | nil => intro st; simp [cumulFrom]
  | cons c cs ih =>
    intro st
    simp only [List.foldl_cons, ih, add_check, List.map_cons, List.flatten_cons, cumulFrom]
    refine congrArg₂ (fun a b => ParityCheckMatrix.mk a b st.n_bits) ?_ ?_
    · simp only [List.length_append, length_sortList, List.append_assoc, List.cons_append,
        List.nil_append]
    · simp [List.append_assoc]

theorem setChecks_eq (m : ParityCheckMatrix) {cs : List (List Nat)} (h : cs ≠ []) :
    m.setChecks cs =
      ⟨0 :: cumulFrom 0 (cs.map List.length), (cs.map sortList).flatten, m.n_bits⟩ := by
  have : cs.isEmpty = false := by cases cs with
    | nil => exact absurd rfl h
    | cons c cs => rfl
  simp [setChecks, this, foldl_add_check]

theorem n_bits_setChecks (m : ParityCheckMatrix) (cs : List (List Nat)) :
    (m.setChecks cs).n_bits = m.n_bits := by
  cases cs with
  | nil => rfl
  | cons c cs => rw [setChecks_eq m (by simp)]

/-- The built matrix delivered by `with_n_bits(n).with_checks`/`setChecks`. -/
def buildMatrix (n : Nat) (cs : List (List Nat)) : ParityCheckMatrix :=
  (with_n_bits n).setChecks cs

theorem n_bits_buildMatrix (n : Nat) (cs : List (List Nat)) :
    (buildMatrix n cs).n_bits = n :=
  n_bits_setChecks _ _

theorem get_n_checks_buildMatrix (n : Nat) (cs : List (List Nat)) :
    (buildMatrix n cs).get_n_checks = cs.length := by
  cases cs with
  | nil => rfl
  | cons c cs =>
    rw [buildMatrix, setChecks_eq _ (by simp)]
    simp [get_n_checks, length_cumulFrom]

theorem ranges_buildMatrix_getElem? (n : Nat) {cs : List (List Nat)} (h : cs ≠ []) :
    ∀ i, i ≤ cs.length →
      (buildMatrix n cs).check_ranges[i]? = some (prefixSum (cs.map List.length) i) := by
  intro i hi
  rw [buildMatrix, setChecks_eq _ h]
  cases i with
  | zero => simp [prefixSum]
  | succ i =>
    have hi' : i < (cs.map List.length).length := by simpa using hi
    simp only [List.getElem?_cons_succ, cumulFrom_getElem? _ 0 i hi', Nat.zero_add]

/-- Extracting one check from a join of per-check blocks. -/
theorem join_drop_take (ls : List (List Nat)) :
    ∀ i, i < ls.length →
      ((ls.flatten.drop (prefixSum (ls.map List.length) i)).take (ls.getD i []).length) =
        ls.getD i [] := by
  induction ls with
  | nil => intro i h; simp at h
  | cons a tl ih =>
    intro i h
    cases i with
    | zero => simp [prefixSum, List.flatten_cons, List.take_left]
    | succ i =>
      have hi : i < tl.length := by simpa using h
      have harith : prefixSum ((a :: tl).map List.length) (i + 1) =
          a.length + prefixSum (tl.map List.length) i := by
        simp [prefixSum]
      rw [List.getD_cons_succ, harith, List.flatten_cons]
      rw [← List.drop_drop, List.drop_left]
      exact ih i hi

theorem get_check_buildMatrix (n : Nat) (cs : List (List Nat)) (i : Nat) :
    (buildMatrix n cs).get_check i = (cs.map sortList)[i]? := by
  cases cs with
  | nil => cases i <;> rfl
  | cons c cs' =>
    set L : List (List Nat) := c :: cs' with hL
    have hne : L ≠ [] := by simp [hL]
    by_cases hi : i < L.length
    · have h1 : (buildMatrix n L).check_ranges[i]? =
          some (prefixSum (L.map List.length) i) :=
        ranges_buildMatrix_getElem? n hne i (Nat.le_of_lt hi)
      have h2 : (buildMatrix n L).check_ranges[i + 1]? =
          some (prefixSum (L.map List.length) (i + 1)) :=
        ranges_buildMatrix_getElem? n hne (i + 1) hi
      rw [get_check, h1, h2]
      dsimp only
      have hbits : (buildMatrix n L).bit_indices = (L.map sortList).flatten := by
        rw [buildMatrix, setChecks_eq _ hne]
      have hlen : i < (L.map List.length).length := by simpa using hi
      have hdiff : prefixSum (L.map List.length) (i + 1) - prefixSum (L.map List.length) i =
          ((L.map sortList).getD i []).length := by
        rw [prefixSum_succ _ i hlen]
        have : (L.map List.length).getD i 0 = ((L.map sortList).getD i []).length := by
          have h1 : (L.map List.length).getD i 0 = (L.getD i []).length := by
            rw [List.getD_eq_getElem?_getD, List.getD_eq_getElem?_getD, List.getElem?_map]
            cases h : L[i]? with
            | none => simp
            | some v => simp
          have h2 : ((L.map sortList).getD i []).length = (L.getD i []).length := by
            rw [List.getD_eq_getElem?_getD, List.getD_eq_getElem?_getD, List.getElem?_map]
            cases h : L[i]? with
            | none => simp
            | some v => simp [length_sortList]
          rw [h1, h2]
        omega
      have hpre : prefixSum (L.map List.length) i =
          prefixSum ((L.map sortList).map List.length) i := by
        have : (L.map sortList).map List.length = L.map List.length := by
          simp only [List.map_map]
          exact List.map_congr_left (fun x _ => length_sortList x)
        rw [this]
      rw [hbits, hdiff, hpre]
      have hi2 : i < (L.map sortList).length := by simpa using hi
      rw [join_drop_take _ i hi2]
      rw [List.getD_eq_getElem?_getD]
      cases h : (L.map sortList)[i]? with
      | none =>
        exact absurd h (by simp [List.getElem?_eq_none_iff] at *; omega)
      | some v => simp
    · have hlen : L.length ≤ i := Nat.le_of_not_lt hi
      have h2 : (buildMatrix n L).check_ranges[i + 1]? = none := by
        apply List.getElem?_eq_none
        rw [buildMatrix, setChecks_eq _ hne]
        simp [length_cumulFrom]
        omega
      rw [get_check, h2]
      have : (L.map sortList)[i]? = none := by
        apply List.getElem?_eq_none; simpa using hlen
      rw [this]
      cases (buildMatrix n L).check_ranges[i]? <;> rfl

theorem getCheckD_buildMatrix (n : Nat) (cs : List (List Nat)) (i : Nat) :
    (buildMatrix n cs).getCheckD i = sortList (cs.getD i []) := by
  rw [getCheckD, get_check_buildMatrix, List.getD_eq_getElem?_getD, List.getElem?_map]
  cases h : cs[i]? with
  | none => rfl
  | some v => rfl

theorem getCheckD_eq_nil_of_le (m : ParityCheckMatrix) {i : Nat}
    (h : m.get_n_checks ≤ i) : m.getCheckD i = [] := by
  rw [getCheckD, get_check]
  have : m.check_ranges[i + 1]? = none := by
    apply List.getElem?_eq_none
    by_cases h0 : 0 < m.check_ranges.length
    · simp only [get_n_checks, if_pos h0] at h; omega
    · omega
  rw [this]
  cases m.check_ranges[i]? <;> rfl

theorem map_range_getD {α : Type} (f : List Nat → α) :
    ∀ cs : List (List Nat),
      (List.range cs.length).map (fun i => f (cs.getD i [])) = cs.map f := by
  intro cs
  induction cs with
  | nil => rfl
  | cons c cs ih =>
    rw [List.length_cons, List.range_succ_eq_map]
    simp only [List.map_cons, List.getD_cons_zero, List.map_map, List.map_cons]
    refine congrArg _ ?_
    have : ((fun i => f (List.getD (c :: cs) i [])) ∘ Nat.succ) =
        (fun i => f (cs.getD i [])) := by
      funext i; simp [List.getD_cons_succ]
    rw [this, ih]

theorem checksOf_buildMatrix (n : Nat) (cs : List (List Nat)) :
    (buildMatrix n cs).checksOf = cs.map sortList := by
  rw [checksOf, get_n_checks_buildMatrix]
  have : (List.range cs.length).map (buildMatrix n cs).getCheckD =
      (List.range cs.length).map (fun i => sortList (cs.getD i [])) :=
    List.map_congr_left (fun i _ => getCheckD_buildMatrix n cs i)
  rw [this, map_range_getD]

end ParityCheckMatrix

theorem getD_mem_of_lt {α : Type} {l : List α} {n : Nat} (h : n < l.length) (d : α) :
    l.getD n d ∈ l := by
  rw [List.getD_eq_getElem?_getD, List.getElem?_eq_getElem h]
  exact List.getElem_mem h

/-- Filtering the range by membership in a bounded, strictly sorted list
recovers the list itself. -/
theorem filter_range_eq_self {S : List Nat} (n : Nat)
    (hs : List.Sorted (· < ·) S) (hb : ∀ x ∈ S, x < n) :
    (List.range n).filter (fun c => S.contains c) = S := by
  apply List.eq_of_perm_of_sorted (r := (· < ·))
  · refine (List.perm_ext_iff_of_nodup ((List.nodup_range n).filter _) hs.nodup).mpr ?_
    intro a
    simp only [List.mem_filter, List.mem_range]
    constructor
    · rintro ⟨-, h⟩
      exact List.elem_iff.mp h
    · intro ha
      exact ⟨hb a ha, List.elem_iff.mpr ha⟩
  · exact (List.sorted_lt_range n).filter _
  · exact hs

namespace ParityCheckMatrix

theorem get_n_bits_eq (m : ParityCheckMatrix) : m.get_n_bits = m.n_bits := rfl

/-! Facts about `keep`. -/

theorem keep_eq_buildMatrix (m : ParityCheckMatrix) (bits : List Nat) :
    m.keep bits =
      buildMatrix m.get_n_bits
        (m.checksOf.map (fun check => check.filter (fun bit => bits.contains bit))) := rfl

theorem length_checksOf (m : ParityCheckMatrix) : m.checksOf.length = m.get_n_checks := by
  simp [checksOf]

theorem checksOf_getD (m : ParityCheckMatrix) (i : Nat) :
    m.checksOf.getD i [] = m.getCheckD i := by
  by_cases h : i < m.get_n_checks
  · rw [checksOf, List.getD_eq_getElem?_getD, List.getElem?_map, List.getElem?_range h]
    rfl
  · rw [getCheckD_eq_nil_of_le m (Nat.le_of_not_lt h), List.getD_eq_getElem?_getD,
      List.getElem?_eq_none (by simpa [length_checksOf] using Nat.le_of_not_lt h)]
    rfl

theorem getCheckD_mem_checksOf (m : ParityCheckMatrix) {i : Nat} (h : i < m.get_n_checks) :
    m.getCheckD i ∈ m.checksOf := by
  rw [← checksOf_getD]
  exact getD_mem_of_lt (by simpa [length_checksOf] using h) []

theorem n_bits_keep (m : ParityCheckMatrix) (bits : List Nat) :
    (m.keep bits).get_n_bits = m.get_n_bits := by
  rw [keep_eq_buildMatrix, get_n_bits_eq, n_bits_buildMatrix]

theorem get_n_checks_keep (m : ParityCheckMatrix) (bits : List Nat) :
    (m.keep bits).get_n_checks = m.get_n_checks := by
  rw [keep_eq_buildMatrix, get_n_checks_buildMatrix, List.length_map, length_checksOf]

theorem getCheckD_keep (m : ParityCheckMatrix) (bits : List Nat) (i : Nat) :
    (m.keep bits).getCheckD i =
      sortList ((m.getCheckD i).filter (fun bit => bits.contains bit)) := by
  rw [keep_eq_buildMatrix, getCheckD_buildMatrix]
  by_cases h : i < m.checksOf.length
  · rw [List.getD_eq_getElem?_getD, List.getElem?_map, List.getElem?_eq_getElem h]
    simp only [Option.map_some', Option.getD_some]
    rw [show m.checksOf[i] = m.checksOf.getD i [] from
      (by rw [List.getD_eq_getElem?_getD, List.getElem?_eq_getElem h]; rfl), checksOf_getD]
  · rw [List.getD_eq_getElem?_getD,
      List.getElem?_eq_none (by simpa using Nat.le_of_not_lt h), Option.getD_none]
    rw [getCheckD_eq_nil_of_le m (by simpa [length_checksOf] using Nat.le_of_not_lt h)]
    rfl

/-- Sorted checks are left sorted by the membership filter, so `keep`
stores exactly the filtered check. -/
theorem getCheckD_keep_of_sorted (m : ParityCheckMatrix) (bits : List Nat) (i : Nat)
    (hs : ∀ c ∈ m.checksOf, List.Sorted (· ≤ ·) c) :
    (m.keep bits).getCheckD i = (m.getCheckD i).filter (fun bit => bits.contains bit) := by
  rw [getCheckD_keep]
  apply sortList_eq_of_sorted
  by_cases h : i < m.get_n_checks
  · exact (hs _ (getCheckD_mem_checksOf m h)).filter _
  · rw [getCheckD_eq_nil_of_le m (Nat.le_of_not_lt h)]
    exact List.sorted_nil

/-! Facts about the transpose. -/

/-- The column of bit `c`: the checks containing `c`, in ascending order. -/
def colOf (m : ParityCheckMatrix) (c : Nat) : List Nat :=
  (List.range m.get_n_checks).filter (fun b => (m.getCheckD b).contains c)

theorem transposed_eq_buildMatrix (m : ParityCheckMatrix) :
    m.get_transposed_matrix =
      buildMatrix m.get_n_checks ((List.range m.get_n_bits).map m.colOf) := rfl

theorem sorted_lt_colOf (m : ParityCheckMatrix) (c : Nat) :
    List.Sorted (· < ·) (m.colOf c) :=
  (List.sorted_lt_range _).filter _

theorem mem_colOf {m : ParityCheckMatrix} {b c : Nat} :
    b ∈ m.colOf c ↔ b < m.get_n_checks ∧ c ∈ m.getCheckD b := by
  simp only [colOf, List.mem_filter, List.mem_range]
  exact and_congr_right (fun _ => List.elem_iff)

theorem n_bits_transposed (m : ParityCheckMatrix) :
    m.get_transposed_matrix.get_n_bits = m.get_n_checks := by
  rw [transposed_eq_buildMatrix, get_n_bits_eq, n_bits_buildMatrix]

theorem get_n_checks_transposed (m : ParityCheckMatrix) :
    m.get_transposed_matrix.get_n_checks = m.get_n_bits := by
  rw [transposed_eq_buildMatrix, get_n_checks_buildMatrix, List.length_map, List.length_range]

theorem getCheckD_transposed (m : ParityCheckMatrix) {c : Nat} (h : c < m.get_n_bits) :
    m.get_transposed_matrix.getCheckD c = m.colOf c := by
  rw [transposed_eq_buildMatrix, getCheckD_buildMatrix]
  rw [List.getD_eq_getElem?_getD, List.getElem?_map, List.getElem?_range h]
  simp only [Option.map_some', Option.getD_some]
  exact sortList_eq_of_sorted ((sorted_lt_colOf m c).imp (fun h => le_of_lt h))

theorem getCheckD_transposed_of_le (m : ParityCheckMatrix) {c : Nat}
    (h : m.get_n_bits ≤ c) : m.get_transposed_matrix.getCheckD c = [] := by
  apply getCheckD_eq_nil_of_le
  rw [get_n_checks_transposed]
  exact h

theorem mem_getCheckD_transposed (m : ParityCheckMatrix)
    (hin : ∀ b, ∀ x ∈ m.getCheckD b, x < m.get_n_bits) (b c : Nat) :
    b ∈ m.get_transposed_matrix.getCheckD c ↔ b < m.get_n_checks ∧ c ∈ m.getCheckD b := by
  by_cases h : c < m.get_n_bits
  · rw [getCheckD_transposed m h]
    exact mem_colOf
  · rw [getCheckD_transposed_of_le m (Nat.le_of_not_lt h)]
    simp only [List.not_mem_nil, false_iff]
    rintro ⟨-, hc⟩
    exact h (hin b c hc)

theorem buildMatrix_map_sortList (n : Nat) (cs : List (List Nat)) :
    buildMatrix n (cs.map sortList) = buildMatrix n cs := by
  cases cs with
  | nil => rfl
  | cons c cs' =>
    have hlen : ((c :: cs').map sortList).map List.length = (c :: cs').map List.length := by
      rw [List.map_map]
      exact List.map_congr_left (fun x _ => length_sortList x)
    have hidx : ((c :: cs').map sortList).map sortList = (c :: cs').map sortList := by
      rw [List.map_map]
      exact List.map_congr_left (fun x _ => sortList_idem x)
    rw [buildMatrix, buildMatrix, setChecks_eq _ (by simp), setChecks_eq _ (by simp),
      hlen, hidx]

/-- Double transpose restores a matrix built from duplicate-free,
in-bounds checks. -/
theorem transposed_transposed (n : Nat) (cs : List (List Nat))
    (hnd : ∀ c ∈ cs, c.Nodup) (hb : ∀ c ∈ cs, ∀ x ∈ c, x < n) :
    (buildMatrix n cs).get_transposed_matrix.get_transposed_matrix = buildMatrix n cs := by
  set M := buildMatrix n cs with hM
  set T := M.get_transposed_matrix with hT
  have hMn : M.get_n_bits = n := by rw [hM, get_n_bits_eq, n_bits_buildMatrix]
  have hMk : M.get_n_checks = cs.length := get_n_checks_buildMatrix n cs
  have hTn : T.get_n_bits = cs.length := by rw [hT, n_bits_transposed, hMk]
  have hTk : T.get_n_checks = n := by rw [hT, get_n_checks_transposed, hMn]
  have hMcheck : ∀ i, M.getCheckD i = sortList (cs.getD i []) := fun i =>
    getCheckD_buildMatrix n cs i
  have hMsorted : ∀ i, i < cs.length → List.Sorted (· < ·) (M.getCheckD i) := by
    intro i hi
    rw [hMcheck]
    exact sorted_lt_sortList (hnd _ (getD_mem_of_lt hi []))
  have hMbound : ∀ i, ∀ x ∈ M.getCheckD i, x < n := by
    intro i x hx
    by_cases hi : i < cs.length
    · rw [hMcheck] at hx
      exact hb _ (getD_mem_of_lt hi []) x (mem_sortList.mp hx)
    · exfalso
      have hnil : M.getCheckD i = [] :=
        getCheckD_eq_nil_of_le M (by rw [hMk]; omega)
      rw [hnil] at hx
      exact absurd hx (List.not_mem_nil x)
  have hTmem : ∀ b c, b ∈ T.getCheckD c ↔ b < cs.length ∧ c ∈ M.getCheckD b := by
    intro b c
    have h := mem_getCheckD_transposed M
      (fun b' x hx => by rw [hMn]; exact hMbound b' x hx) b c
    rw [hMk] at h
    exact h
  have step : T.get_transposed_matrix =
      buildMatrix n ((List.range cs.length).map T.colOf) := by
    rw [transposed_eq_buildMatrix T, hTk, hTn]
  have hcol : ∀ b, b < cs.length → T.colOf b = M.getCheckD b := by
    intro b hbk
    rw [colOf, hTk]
    have hcongr : (List.range n).filter (fun c => (T.getCheckD c).contains b) =
        (List.range n).filter (fun c => (M.getCheckD b).contains c) := by
      apply List.filter_congr
      intro c _
      rw [← Bool.coe_iff_coe]
      constructor
      · intro h
        exact List.elem_iff.mpr ((hTmem b c).mp (List.elem_iff.mp h)).2
      · intro h
        exact List.elem_iff.mpr ((hTmem b c).mpr ⟨hbk, List.elem_iff.mp h⟩)
    rw [hcongr]
    exact filter_range_eq_self n (hMsorted b hbk) (hMbound b)
  have hmap : (List.range cs.length).map T.colOf = cs.map sortList := by
    have h1 : (List.range cs.length).map T.colOf =
        (List.range cs.length).map (fun b => sortList (cs.getD b [])) := by
      apply List.map_congr_left
      intro b hbmem
      rw [hcol b (List.mem_range.mp hbmem), hMcheck]
    rw [h1, map_range_getD]
  rw [step, hmap, buildMatrix_map_sortList]

/-! Facts about horizontal concatenation. -/

theorem hconcat_eq_buildMatrix (l r : ParityCheckMatrix) :
    l.get_horizontal_concat_with r =
      buildMatrix (l.get_n_bits + r.get_n_bits)
        ((List.range (max l.get_n_checks r.get_n_checks)).map (fun i =>
          l.getCheckD i ++ (r.getCheckD i).map (fun b => b + l.get_n_bits))) := rfl

theorem get_n_checks_hconcat (l r : ParityCheckMatrix) :
    (l.get_horizontal_concat_with r).get_n_checks =
      max l.get_n_checks r.get_n_checks := by
  rw [hconcat_eq_buildMatrix, get_n_checks_buildMatrix, List.length_map, List.length_range]

theorem n_bits_hconcat (l r : ParityCheckMatrix) :
    (l.get_horizontal_concat_with r).get_n_bits = l.get_n_bits + r.get_n_bits := by
  rw [hconcat_eq_buildMatrix, get_n_bits_eq, n_bits_buildMatrix]

theorem mem_getCheckD_hconcat (l r : ParityCheckMatrix) (i b : Nat) :
    b ∈ (l.get_horizontal_concat_with r).getCheckD i ↔
      b ∈ l.getCheckD i ∨ ∃ c ∈ r.getCheckD i, b = c + l.get_n_bits := by
  rw [hconcat_eq_buildMatrix, getCheckD_buildMatrix]
  by_cases hi : i < max l.get_n_checks r.get_n_checks
  · rw [List.getD_eq_getElem?_getD, List.getElem?_map, List.getElem?_range hi]
    simp only [Option.map_some', Option.getD_some]
    rw [mem_sortList, List.mem_append, List.mem_map]
    constructor
    · rintro (h | ⟨c, hc, rfl⟩)
      · exact Or.inl h
      · exact Or.inr ⟨c, hc, rfl⟩
    · rintro (h | ⟨c, hc, rfl⟩)
      · exact Or.inl h
      · exact Or.inr ⟨c, hc, rfl⟩
  · rw [List.getD_eq_getElem?_getD,
      List.getElem?_eq_none (by simpa using Nat.le_of_not_lt hi), Option.getD_none]
    have hl : l.getCheckD i = [] :=
      getCheckD_eq_nil_of_le l (by omega)
    have hr : r.getCheckD i = [] :=
      getCheckD_eq_nil_of_le r (by omega)
    rw [hl, hr]
    simp [sortList]

end ParityCheckMatrix

/-! Facts about the modelled Ranker. -/

theorem mem_symDiff {xs ys : List Nat} {z : Nat} :
    z ∈ symDiff xs ys ↔ (z ∈ xs ∧ z ∉ ys) ∨ (z ∈ ys ∧ z ∉ xs) := by
  simp only [symDiff, mem_sortList, List.mem_append, List.mem_filter, decide_eq_true_eq]
  constructor
  · rintro (⟨h1, h2⟩ | ⟨h1, h2⟩)
    · exact Or.inl ⟨h1, fun hy => h2 (List.elem_iff.mpr hy)⟩
    · exact Or.inr ⟨h1, fun hx => h2 (List.elem_iff.mpr hx)⟩
  · rintro (⟨h1, h2⟩ | ⟨h1, h2⟩)
    · exact Or.inl ⟨h1, fun hy => h2 (List.elem_iff.mp hy)⟩
    · exact Or.inr ⟨h1, fun hx => h2 (List.elem_iff.mp hx)⟩

theorem nodup_symDiff {xs ys : List Nat} (hx : xs.Nodup) (hy : ys.Nodup) :
    (symDiff xs ys).Nodup := by
  apply nodup_sortList
  refine List.Nodup.append (hx.filter _) (hy.filter _) ?_
  intro z hz1 hz2
  have h1 := List.mem_filter.mp hz1
  have h2 := List.mem_filter.mp hz2
  have := List.elem_iff.mpr h1.1
  simp only [decide_eq_true_eq] at h2
  exact h2.2 this

theorem sorted_lt_symDiff {xs ys : List Nat} (hx : xs.Nodup) (hy : ys.Nodup) :
    List.Sorted (· < ·) (symDiff xs ys) :=
  sorted_lt_of_le_nodup (sorted_sortList _) (nodup_symDiff hx hy)

theorem mem_of_head?_eq_some {l : List Nat} {a : Nat} (h : l.head? = some a) : a ∈ l := by
  cases l with
  | nil => simp at h
  | cons b t =>
    have : b = a := by simpa using h
    rw [← this]
    exact List.mem_cons_self b t

theorem headD_eq_of_head?_eq_some {l : List Nat} {a : Nat} (h : l.head? = some a) :
    l.headD 0 = a := by
  cases l with
  | nil => simp at h
  | cons b t => simpa using h

theorem head?_eq_some_headD {l : List Nat} (h : l ≠ []) : l.head? = some (l.headD 0) := by
  cases l with
  | nil => exact absurd rfl h
  | cons b t => rfl

theorem headD_mem {l : List Nat} (h : l ≠ []) : l.headD 0 ∈ l := by
  cases l with
  | nil => exact absurd rfl h
  | cons b t => exact List.mem_cons_self b t

/-- Every element of the symmetric difference of two strictly sorted
lists with the same head exceeds that head. -/
theorem symDiff_head_lt {l : Nat} {xs ys : List Nat}
    (hx : List.Sorted (· < ·) xs) (hy : List.Sorted (· < ·) ys)
    (hxh : xs.head? = some l) (hyh : ys.head? = some l) :
    ∀ z ∈ symDiff xs ys, l < z := by
  intro z hz
  rcases mem_symDiff.mp hz with ⟨hzin, hznot⟩ | ⟨hzin, hznot⟩
  · cases xs with
    | nil => simp at hxh
    | cons a xs' =>
      obtain rfl : a = l := by simpa using hxh
      rcases List.mem_cons.mp hzin with rfl | hz'
      · exact absurd (mem_of_head?_eq_some hyh) hznot
      · exact (List.sorted_cons.mp hx).1 z hz'
  · cases ys with
    | nil => simp at hyh
    | cons a ys' =>
      obtain rfl : a = l := by simpa using hyh
      rcases List.mem_cons.mp hzin with rfl | hz'
      · exact absurd (mem_of_head?_eq_some hxh) hznot
      · exact (List.sorted_cons.mp hy).1 z hz'

/-- Invariant of the pivot list: strictly sorted nonempty rows whose
entries come from the column pool `S`, with pairwise distinct leading
columns. -/
def GoodPivots (S : List Nat) (pivots : List (List Nat)) : Prop :=
  (∀ p ∈ pivots, List.Sorted (· < ·) p ∧ p ≠ [] ∧ ∀ x ∈ p, x ∈ S) ∧
  (pivots.map (fun p => p.headD 0)).Nodup

theorem goodPivots_nil (S : List Nat) : GoodPivots S [] :=
  ⟨fun p hp => absurd hp (List.not_mem_nil p), List.nodup_nil⟩

/-- Number of pivots whose leading column is at least `l`; the
termination measure of the row-reduction loop. -/
def countGE (pivots : List (List Nat)) (l : Nat) : Nat :=
  (pivots.filter (fun p => decide (l ≤ p.headD 0))).length

theorem length_filter_mono {α : Type} (l : List α) (p q : α → Bool)
    (himp : ∀ x, p x = true → q x = true) :
    (l.filter p).length ≤ (l.filter q).length := by
  induction l with
  | nil => simp
  | cons b l ih =>
    cases hp : p b with
    | true =>
      rw [List.filter_cons, List.filter_cons, hp, himp b hp]
      simpa using ih
    | false =>
      rw [List.filter_cons, hp]
      cases hq : q b with
      | true =>
        rw [List.filter_cons, hq]
        simp only [if_true]
        calc (l.filter p).length ≤ (l.filter q).length := ih
          _ ≤ (b :: l.filter q).length := by simp
      | false =>
        rw [List.filter_cons, hq]
        simpa using ih

theorem length_filter_lt {α : Type} (l : List α) (p q : α → Bool)
    (himp : ∀ x, p x = true → q x = true) {a : α} (ha : a ∈ l)
    (hqa : q a = true) (hpa : p a = false) :
    (l.filter p).length < (l.filter q).length := by
  induction l with
  | nil => exact absurd ha (List.not_mem_nil a)
  | cons b l ih =>
    rcases List.mem_cons.mp ha with rfl | hmem
    · rw [List.filter_cons, List.filter_cons, hqa, hpa]
      simp only [if_true, List.length_cons]
      have := length_filter_mono l p q himp
      simpa using Nat.lt_succ_of_le this
    · cases hp : p b with
      | true =>
        rw [List.filter_cons, List.filter_cons, hp, himp b hp]
        simpa using ih hmem
      | false =>
        rw [List.filter_cons, hp]
        simp only [Bool.false_eq_true, if_false]
        cases hq : q b with
        | true =>
          rw [List.filter_cons, hq]
          simp only [if_true, List.length_cons]
          have := ih hmem
          omega
        | false =>
          rw [List.filter_cons, hq]
          simpa using ih hmem

theorem reduceRowFuel_nil (pivots : List (List Nat)) (fuel : Nat) :
    reduceRowFuel pivots fuel [] = [] := by
  cases fuel <;> rfl

/-- Behaviour of the fueled reduction loop when the fuel dominates the
termination measure: the result stays strictly sorted inside the column
pool, and is either empty or led by a column no pivot leads. -/
theorem reduceRowFuel_spec (S : List Nat) :
    ∀ (fuel : Nat) (pivots : List (List Nat)) (row : List Nat),
      GoodPivots S pivots →
      List.Sorted (· < ·) row → (∀ x ∈ row, x ∈ S) →
      (∀ l, row.head? = some l → countGE pivots l < fuel) →
      List.Sorted (· < ·) (reduceRowFuel pivots fuel row) ∧
        (∀ x ∈ reduceRowFuel pivots fuel row, x ∈ S) ∧
        (reduceRowFuel pivots fuel row = [] ∨
          ∀ p ∈ pivots, p.head? ≠ (reduceRowFuel pivots fuel row).head?) := by
  intro fuel
  induction fuel with
  | zero =>
    intro pivots row hgood hs hS hcount
    cases row with
    | nil =>
      rw [reduceRowFuel_nil]
      exact ⟨List.sorted_nil, fun x hx => absurd hx (List.not_mem_nil x), Or.inl rfl⟩
    | cons l rest => exact absurd (hcount l rfl) (by omega)
  | succ fuel ih =>
    intro pivots row hgood hs hS hcount
    cases row with
    | nil =>
      rw [reduceRowFuel_nil]
      exact ⟨List.sorted_nil, fun x hx => absurd hx (List.not_mem_nil x), Or.inl rfl⟩
    | cons l rest =>
      cases hfind : pivots.find? (fun p => p.head? == some l) with
      | none =>
        have hres : reduceRowFuel pivots (fuel + 1) (l :: rest) = l :: rest := by
          rw [reduceRowFuel, hfind]
        rw [hres]
        refine ⟨hs, hS, Or.inr ?_⟩
        intro p hp
        have := List.find?_eq_none.mp hfind p hp
        simpa using this
      | some p =>
        have hpmem := List.mem_of_find?_eq_some hfind
        have hphead : p.head? = some l := by
          have := List.find?_some hfind
          simpa using this
        obtain ⟨hpsort, hpne, hpS⟩ := hgood.1 p hpmem
        have hres : reduceRowFuel pivots (fuel + 1) (l :: rest) =
            reduceRowFuel pivots fuel (symDiff (l :: rest) p) := by
          rw [reduceRowFuel, hfind]
        have hrow'_sorted : List.Sorted (· < ·) (symDiff (l :: rest) p) :=
          sorted_lt_symDiff hs.nodup hpsort.nodup
        have hrow'_S : ∀ x ∈ symDiff (l :: rest) p, x ∈ S := by
          intro x hx
          rcases mem_symDiff.mp hx with ⟨h1, _⟩ | ⟨h1, _⟩
          · exact hS x h1
          · exact hpS x h1
        have hrow'_gt : ∀ z ∈ symDiff (l :: rest) p, l < z :=
          symDiff_head_lt hs hpsort rfl hphead
        have hcount' : ∀ l', (symDiff (l :: rest) p).head? = some l' →
            countGE pivots l' < fuel := by
          intro l' hl'
          have hll' : l < l' := hrow'_gt l' (mem_of_head?_eq_some hl')
          have hdec : countGE pivots l' < countGE pivots l := by
            apply length_filter_lt pivots _ _ _ hpmem
            · rw [headD_eq_of_head?_eq_some hphead]
              simp
            · rw [headD_eq_of_head?_eq_some hphead]
              simp only [decide_eq_false_iff_not]
              omega
            · intro x hx
              simp only [decide_eq_true_eq] at hx ⊢
              omega
          have := hcount l rfl
          omega
        rw [hres]
        exact ih pivots (symDiff (l :: rest) p) hgood hrow'_sorted hrow'_S hcount'

theorem promoteRow_good {S : List Nat} {pivots : List (List Nat)} {row : List Nat}
    (hgood : GoodPivots S pivots) (hs : List.Sorted (· < ·) row)
    (hS : ∀ x ∈ row, x ∈ S) :
    GoodPivots S (promoteRow pivots row) := by
  have hcount : ∀ l, row.head? = some l → countGE pivots l < pivots.length + 1 := by
    intro l _
    have : countGE pivots l ≤ pivots.length := List.length_filter_le _ _
    omega
  obtain ⟨hrs, hrS, hror⟩ :=
    reduceRowFuel_spec S (pivots.length + 1) pivots row hgood hs hS hcount
  rw [show reduceRowFuel pivots (pivots.length + 1) row = reduceRow pivots row from rfl]
    at hrs hrS hror
  rw [promoteRow]
  by_cases hempty : (reduceRow pivots row).isEmpty
  · simpa [hempty] using hgood
  · simp only [hempty, if_false, Bool.false_eq_true]
    have hne : reduceRow pivots row ≠ [] := by
      intro h
      rw [h] at hempty
      exact hempty rfl
    constructor
    · intro q hq
      rcases List.mem_append.mp hq with hq | hq
      · exact hgood.1 q hq
      · rw [List.mem_singleton.mp hq]
        exact ⟨hrs, hne, hrS⟩
    · rw [List.map_append]
      refine List.Nodup.append hgood.2 (by simp) ?_
      intro x hx1 hx2
      obtain ⟨q, hq, rfl⟩ := List.mem_map.mp hx1
      have hxeq : q.headD 0 = (reduceRow pivots row).headD 0 := by
        simpa using hx2
      have hqne : q ≠ [] := (hgood.1 q hq).2.1
      have hcontra := hror.resolve_left hne q hq
      apply hcontra
      rw [head?_eq_some_headD hqne, head?_eq_some_headD hne, hxeq]

theorem foldl_promoteRow_good {S : List Nat} :
    ∀ (rows : List (List Nat)) (pivots : List (List Nat)),
      GoodPivots S pivots →
      (∀ row ∈ rows, List.Sorted (· < ·) row ∧ ∀ x ∈ row, x ∈ S) →
      GoodPivots S (rows.foldl promoteRow pivots) := by
  intro rows
  induction rows with
  | nil => intro pivots hgood _; exact hgood
  | cons row rows ih =>
    intro pivots hgood hrows
    rw [List.foldl_cons]
    refine ih _ (promoteRow_good hgood (hrows row (by simp)).1 (hrows row (by simp)).2) ?_
    intro r hr
    exact hrows r (List.mem_cons_of_mem _ hr)

theorem goodPivots_length_le {S : List Nat} {pivots : List (List Nat)}
    (h : GoodPivots S pivots) : pivots.length ≤ S.toFinset.card := by
  have hnodup := h.2
  have hsub : ∀ x ∈ pivots.map (fun p => p.headD 0), x ∈ S := by
    intro x hx
    obtain ⟨p, hp, rfl⟩ := List.mem_map.mp hx
    obtain ⟨-, hne, hS⟩ := h.1 p hp
    exact hS _ (headD_mem hne)
  have h1 : pivots.length = (pivots.map (fun p => p.headD 0)).toFinset.card := by
    rw [List.toFinset_card_of_nodup hnodup, List.length_map]
  rw [h1]
  apply Finset.card_le_card
  intro x hx
  exact List.mem_toFinset.mpr (hsub x (List.mem_toFinset.mp hx))

/-- The computed rank never exceeds the size of any pool containing all
column indices of the matrix's (strictly sorted) rows. -/
theorem get_rank_le_card (m : ParityCheckMatrix) (S : List Nat)
    (hrows : ∀ row ∈ m.checksOf, List.Sorted (· < ·) row ∧ ∀ x ∈ row, x ∈ S) :
    m.get_rank ≤ S.toFinset.card :=
  goodPivots_length_le (foldl_promoteRow_good m.checksOf [] (goodPivots_nil S) hrows)

/-- Restricting to the erased columns bounds the rank by the length of
the erasure list, duplicates included. -/
theorem get_rank_keep_le (m : ParityCheckMatrix) (err : List Nat)
    (hnd : ∀ c ∈ m.checksOf, c.Nodup) :
    (m.keep err).get_rank ≤ err.length := by
  have h1 : (m.keep err).get_rank ≤ err.toFinset.card := by
    apply get_rank_le_card
    intro row hrow
    rw [ParityCheckMatrix.keep_eq_buildMatrix, ParityCheckMatrix.checksOf_buildMatrix] at hrow
    obtain ⟨c0, hc0, rfl⟩ := List.mem_map.mp hrow
    obtain ⟨c, hc, rfl⟩ := List.mem_map.mp hc0
    constructor
    · exact sorted_lt_sortList ((hnd c hc).filter _)
    · intro x hx
      have hxf := List.mem_filter.mp (mem_sortList.mp hx)
      exact List.elem_iff.mp hxf.2
  exact h1.trans (List.toFinset_card_le err)

/-! Facts about the simulation harness. -/

theorem hasNot_eq_false {r : SimulationResult}
    (h : r.has_not_at_least_one_success_and_one_failure = false) :
    1 ≤ r.n_successes ∧ 1 ≤ r.n_failures := by
  simp only [SimulationResult.has_not_at_least_one_success_and_one_failure,
    Bool.or_eq_false_iff, beq_eq_false_iff_ne, ne_eq] at h
  omega

theorem simulateThread_some {outcomes : Nat → Bool} :
    ∀ (fuel t : Nat) (acc r : SimulationResult),
      simulateThread outcomes fuel t acc = some r →
      1 ≤ r.n_successes ∧ 1 ≤ r.n_failures := by
  intro fuel
  induction fuel with
  | zero =>
    intro t acc r h
    rw [simulateThread] at h
    cases hc : acc.has_not_at_least_one_success_and_one_failure with
    | true => rw [hc] at h; simp at h
    | false =>
      rw [hc] at h
      simp only [Bool.false_eq_true, if_false, Option.some.injEq] at h
      rw [← h]
      exact hasNot_eq_false hc
  | succ fuel ih =>
    intro t acc r h
    rw [simulateThread] at h
    cases hc : acc.has_not_at_least_one_success_and_one_failure with
    | true =>
      rw [hc] at h
      simp only [if_true] at h
      exact ih _ _ _ h
    | false =>
      rw [hc] at h
      simp only [Bool.false_eq_true, if_false, Option.some.injEq] at h
      rw [← h]
      exact hasNot_eq_false hc

theorem collectThreadResults_some (outcomes : Nat → Nat → Bool) (fuel : Nat) :
    ∀ (n : Nat) (rs : List SimulationResult),
      collectThreadResults outcomes fuel n = some rs →
      rs.length = n ∧ ∀ r ∈ rs, 1 ≤ r.n_successes ∧ 1 ≤ r.n_failures := by
  intro n
  induction n with
  | zero =>
    intro rs h
    rw [collectThreadResults] at h
    have hrs : rs = [] := by
      have := h.symm
      simpa using this
    subst hrs
    exact ⟨rfl, fun r hr => absurd hr (List.not_mem_nil r)⟩
  | succ n ih =>
    intro rs h
    rw [collectThreadResults] at h
    cases h1 : collectThreadResults outcomes fuel n with
    | none => rw [h1] at h; simp at h
    | some rs0 =>
      rw [h1] at h
      cases h2 : simulate_thread_until_one_event_is_found (outcomes n) fuel with
      | none => rw [h2] at h; simp at h
      | some r0 =>
        rw [h2] at h
        simp only [Option.some.injEq] at h
        subst h
        obtain ⟨hlen, hall⟩ := ih rs0 h1
        have hr0 := simulateThread_some fuel 0 SimulationResult.new r0 h2
        constructor
        · simp [hlen]
        · intro r hr
          rcases List.mem_append.mp hr with hr | hr
          · exact hall r hr
          · rw [List.mem_singleton.mp hr]
            exact hr0

theorem length_le_sum_of_ge_one {f : SimulationResult → Nat} :
    ∀ rs : List SimulationResult, (∀ r ∈ rs, 1 ≤ f r) →
      rs.length ≤ (rs.map f).sum := by
  intro rs
  induction rs with
  | nil => intro _; simp
  | cons r rs ih =>
    intro h
    simp only [List.map_cons, List.sum_cons, List.length_cons]
    have h1 := h r (List.mem_cons_self r rs)
    have h2 := ih (fun x hx => h x (List.mem_cons_of_mem _ hx))
    omega

/-! Predicates on modelled f64 values. -/

/-- Membership of an f64 value in the closed interval [0,1]; NaN is not
in the interval. -/
def inUnitInterval : F64 → Prop
  | none => False
  | some q => 0 ≤ q ∧ q ≤ 1

instance (p : F64) : Decidable (inUnitInterval p) :=
  match p with
  | none => isFalse (fun h => h)
  | some q => inferInstanceAs (Decidable (0 ≤ q ∧ q ≤ 1))

/-- The f64 value is an actual (non-NaN) number lying outside [0,1]. -/
def isFiniteOutside : F64 → Prop
  | none => False
  | some q => q < 0 ∨ 1 < q

instance (p : F64) : Decidable (isFiniteOutside p) :=
  match p with
  | none => isFalse (fun h => h)
  | some q => inferInstanceAs (Decidable (q < 0 ∨ 1 < q))

/-! Model validation against the repository's own tests and doc tests. -/

/-- The 3-bit repetition code of the repository's tests. -/
def repCode : ParityCheckMatrix := ParityCheckMatrix.buildMatrix 3 [[0, 1], [1, 2]]

/-- The Hamming(7,4) code of the repository's tests. -/
def hammingCode : ParityCheckMatrix :=
  ParityCheckMatrix.buildMatrix 7 [[0, 1, 2, 4], [0, 1, 3, 5], [0, 2, 3, 6]]

theorem rank_doc_test :
    (ParityCheckMatrix.buildMatrix 3 [[0, 1], [1, 2], [0, 2]]).get_rank = 2 := by decide

theorem transpose_doc_test :
    (ParityCheckMatrix.buildMatrix 4 [[0, 1, 2], [1, 3], [0, 2, 3]]).get_transposed_matrix =
      ParityCheckMatrix.buildMatrix 3 [[0, 2], [0, 1], [0, 2], [1, 2]] := by decide

theorem hconcat_doc_test :
    (ParityCheckMatrix.buildMatrix 3 [[0, 1], [1, 2]]).get_horizontal_concat_with
        (ParityCheckMatrix.buildMatrix 4 [[1, 2, 3], [0, 1], [2, 3]]) =
      ParityCheckMatrix.buildMatrix 7 [[0, 1, 4, 5, 6], [1, 2, 3, 4], [5, 6]] := by decide

theorem keep_doc_test :
    (ParityCheckMatrix.buildMatrix 5 [[0, 1, 2], [2, 3, 4], [0, 2, 4], [1, 3]]).keep [0, 1, 4] =
      ParityCheckMatrix.buildMatrix 5 [[0, 1], [4], [0, 4], [1]] := by decide

theorem erasure_repetition_test :
    ErasureDecoder.decode ⟨repCode, some (1 / 5)⟩ [] = ErasureResult.Success ∧
    ErasureDecoder.decode ⟨repCode, some (1 / 5)⟩ [0, 2] = ErasureResult.Success ∧
    ErasureDecoder.decode ⟨repCode, some (1 / 5)⟩ [0, 1, 2] = ErasureResult.Failure := by
  decide

theorem erasure_hamming_test :
    ErasureDecoder.decode ⟨hammingCode, some (1 / 4)⟩ [0, 1, 2] = ErasureResult.Success ∧
    ErasureDecoder.decode ⟨hammingCode, some (1 / 4)⟩ [2, 4, 6] = ErasureResult.Failure ∧
    ErasureDecoder.decode ⟨hammingCode, some (1 / 4)⟩ [0, 1, 2, 3, 4, 5, 6] =
      ErasureResult.Failure := by
  decide

/-! Claim C1. -/

/-- C1, counterexample: the claim requires `Success` whenever the rank of
the restriction equals the number of DISTINCT erased positions, but for
the duplicated erasure `[0, 0]` on the repetition code the restricted
rank (1) equals the distinct count (1) while the decoder compares
against the raw list length (2) and answers `Failure`. -/
theorem c1_counterexample :
    ErasureDecoder.decode ⟨repCode, some (1 / 5)⟩ [0, 0] = ErasureResult.Failure ∧
    (repCode.keep [0, 0]).get_rank = ([0, 0] : List Nat).dedup.length := by
  decide

/-- C1, amended: for a code whose checks are duplicate-free, `decode`
returns `Success` iff the GF2 rank of the matrix restricted to the
erased columns equals the LENGTH of the erasure list (multiplicities
included, not the distinct count); in particular the `usize` subtraction
in the source never underflows and decode is total. -/
theorem c1_decode_success_iff_rank_eq_length (code : ParityCheckMatrix) (p : F64)
    (err : List Nat) (hnd : ∀ c ∈ code.checksOf, c.Nodup) :
    ErasureDecoder.decode ⟨code, p⟩ err = ErasureResult.Success ↔
      (code.keep err).get_rank = err.length := by
  have hle := get_rank_keep_le code err hnd
  show (if err.length - (code.keep err).get_rank = 0 then ErasureResult.Success
      else ErasureResult.Failure) = ErasureResult.Success ↔
    (code.keep err).get_rank = err.length
  by_cases h : err.length - (code.keep err).get_rank = 0
  · rw [if_pos h]
    constructor
    · intro _
      omega
    · intro _
      rfl
  · rw [if_neg h]
    constructor
    · intro hcontra
      exact absurd hcontra (by decide)
    · intro heq
      omega

/-- C1, witness at the repetition code and the single erasure `[0]`. -/
theorem c1_witness :
    ErasureDecoder.decode ⟨repCode, some (1 / 5)⟩ [0] = ErasureResult.Success ↔
      (repCode.keep [0]).get_rank = 1 := by
  have h := c1_decode_success_iff_rank_eq_length repCode (some (1 / 5)) [0] (by decide)
  simpa using h

/-! Claim C2. -/

/-- C2: zero-length checks do NOT vanish from the logical check count:
`add_check` pushes a (repeated) offset entry for them, so on the exact
input of the repository's test `empty_checks_are_removed_on_construction`
the construction yields 4 logical checks with check 0 empty, while the
test asserts 2 checks with check 0 equal to `[0, 1]`. -/
theorem c2_empty_checks_recorded :
    (ParityCheckMatrix.with_n_bits 3).with_checks [[], [0, 1], [], [1, 2]] =
      some (ParityCheckMatrix.buildMatrix 3 [[], [0, 1], [], [1, 2]]) ∧
    (ParityCheckMatrix.buildMatrix 3 [[], [0, 1], [], [1, 2]]).get_n_checks = 4 ∧
    (ParityCheckMatrix.buildMatrix 3 [[], [0, 1], [], [1, 2]]).get_check 0 = some [] := by
  decide

/-! Claim C3. -/

/-- A 10-bit matrix exposing the hard-coded complement bound. -/
def tenBitMatrix : ParityCheckMatrix := ParityCheckMatrix.buildMatrix 10 [[9]]

/-- C3: `without` computes the complement inside the hard-coded range
`(0..9)` rather than against the matrix's own declared bit count, so on
a 10-bit matrix whose only check touches bit 9, `without []` drops bit 9
although the complement of the empty set is everything. -/
theorem c3_without_hardcoded_nine :
    tenBitMatrix.without [] ≠
      tenBitMatrix.keep ((List.range tenBitMatrix.get_n_bits).filter
        (fun x => ¬ ([] : List Nat).contains x)) := by
  decide

/-! Claim C5. -/

/-- C5, counterexample: on the doc-test operands of
`get_horizontal_concat_with` the result has 3 checks while the left
operand has 2, refuting "same number of checks as the left operand". -/
theorem c5_counterexample :
    ((ParityCheckMatrix.buildMatrix 3 [[0, 1], [1, 2]]).get_horizontal_concat_with
        (ParityCheckMatrix.buildMatrix 4 [[1, 2, 3], [0, 1], [2, 3]])).get_n_checks = 3 ∧
    (ParityCheckMatrix.buildMatrix 3 [[0, 1], [1, 2]]).get_n_checks = 2 := by
  decide

/-- C5, amended: the horizontal concatenation has `max` of the two check
counts many checks (an absent operand check contributes nothing), its
bit count is the sum of the operand bit counts, and a bit belongs to
output check `i` iff it belongs to the left check `i` or is a right
check `i` bit shifted by the left bit count. -/
theorem c5_hconcat_characterization (l r : ParityCheckMatrix) :
    (l.get_horizontal_concat_with r).get_n_checks =
        max l.get_n_checks r.get_n_checks ∧
      (l.get_horizontal_concat_with r).get_n_bits = l.get_n_bits + r.get_n_bits ∧
      ∀ i b, b ∈ (l.get_horizontal_concat_with r).getCheckD i ↔
        b ∈ l.getCheckD i ∨ ∃ c ∈ r.getCheckD i, b = c + l.get_n_bits :=
  ⟨ParityCheckMatrix.get_n_checks_hconcat l r, ParityCheckMatrix.n_bits_hconcat l r,
    fun i b => ParityCheckMatrix.mem_getCheckD_hconcat l r i b⟩

/-- C5, witness at the doc-test operands. -/
theorem c5_witness :
    ((ParityCheckMatrix.buildMatrix 3 [[0, 1], [1, 2]]).get_horizontal_concat_with
        (ParityCheckMatrix.buildMatrix 4 [[1, 2, 3], [0, 1], [2, 3]])).get_n_checks = 3 ∧
    (4 : Nat) ∈ ((ParityCheckMatrix.buildMatrix 3 [[0, 1], [1, 2]]).get_horizontal_concat_with
        (ParityCheckMatrix.buildMatrix 4 [[1, 2, 3], [0, 1], [2, 3]])).getCheckD 0 := by
  obtain ⟨h1, -, h3⟩ := c5_hconcat_characterization
    (ParityCheckMatrix.buildMatrix 3 [[0, 1], [1, 2]])
    (ParityCheckMatrix.buildMatrix 4 [[1, 2, 3], [0, 1], [2, 3]])
  refine ⟨h1.trans (by decide), (h3 0 4).mpr ?_⟩
  exact Or.inr ⟨1, by decide, by decide⟩

/-! Claim C6. -/

/-- C6, counterexample: a constructible matrix with a duplicated bit
index in its only (nonempty) check is not restored by a double
transpose, because transposition treats checks as sets. -/
theorem c6_counterexample :
    (ParityCheckMatrix.with_n_bits 2).with_checks [[1, 1]] =
      some (ParityCheckMatrix.buildMatrix 2 [[1, 1]]) ∧
    (∀ c ∈ [[1, 1]], c ≠ ([] : List Nat)) ∧
    (ParityCheckMatrix.buildMatrix 2 [[1, 1]]).get_transposed_matrix.get_transposed_matrix ≠
      ParityCheckMatrix.buildMatrix 2 [[1, 1]] := by
  decide

/-- C6, amended: for matrices built from checks that are in bounds and
duplicate-free (no check empty, as claimed), the transpose swaps the bit
and check counts, bit `b` lies in output check `c` iff input check `b`
contains `c`, and transposing twice is the identity. -/
theorem c6_transpose_involution_amended (n : Nat) (cs : List (List Nat))
    (hne : ∀ c ∈ cs, c ≠ []) (hnd : ∀ c ∈ cs, c.Nodup)
    (hb : ∀ c ∈ cs, ∀ x ∈ c, x < n) :
    (ParityCheckMatrix.buildMatrix n cs).get_transposed_matrix.get_transposed_matrix =
        ParityCheckMatrix.buildMatrix n cs ∧
      (ParityCheckMatrix.buildMatrix n cs).get_transposed_matrix.get_n_bits =
        (ParityCheckMatrix.buildMatrix n cs).get_n_checks ∧
      (ParityCheckMatrix.buildMatrix n cs).get_transposed_matrix.get_n_checks =
        (ParityCheckMatrix.buildMatrix n cs).get_n_bits ∧
      ∀ b c, b ∈ (ParityCheckMatrix.buildMatrix n cs).get_transposed_matrix.getCheckD c ↔
        b < (ParityCheckMatrix.buildMatrix n cs).get_n_checks ∧
          c ∈ (ParityCheckMatrix.buildMatrix n cs).getCheckD b := by
  refine ⟨ParityCheckMatrix.transposed_transposed n cs hnd hb,
    ParityCheckMatrix.n_bits_transposed _, ParityCheckMatrix.get_n_checks_transposed _, ?_⟩
  intro b c
  apply ParityCheckMatrix.mem_getCheckD_transposed
  intro b' x hx
  by_cases hi : b' < cs.length
  · rw [ParityCheckMatrix.getCheckD_buildMatrix] at hx
    rw [ParityCheckMatrix.get_n_bits_eq, ParityCheckMatrix.n_bits_buildMatrix]
    exact hb _ (getD_mem_of_lt hi []) x (mem_sortList.mp hx)
  · exfalso
    have hnil : (ParityCheckMatrix.buildMatrix n cs).getCheckD b' = [] :=
      ParityCheckMatrix.getCheckD_eq_nil_of_le _
        (by rw [ParityCheckMatrix.get_n_checks_buildMatrix]; omega)
    rw [hnil] at hx
    exact absurd hx (List.not_mem_nil x)

/-- C6, witness at the transpose doc-test matrix. -/
theorem c6_witness :
    (ParityCheckMatrix.buildMatrix 4
          [[0, 1, 2], [1, 3], [0, 2, 3]]).get_transposed_matrix.get_transposed_matrix =
        ParityCheckMatrix.buildMatrix 4 [[0, 1, 2], [1, 3], [0, 2, 3]] ∧
      (ParityCheckMatrix.buildMatrix 4
          [[0, 1, 2], [1, 3], [0, 2, 3]]).get_transposed_matrix.get_n_bits = 3 ∧
      (ParityCheckMatrix.buildMatrix 4
          [[0, 1, 2], [1, 3], [0, 2, 3]]).get_transposed_matrix.get_n_checks = 4 := by
  obtain ⟨h1, h2, h3, -⟩ := c6_transpose_involution_amended 4 [[0, 1, 2], [1, 3], [0, 2, 3]]
    (by decide) (by decide) (by decide)
  exact ⟨h1, h2.trans (by decide), h3.trans (by decide)⟩

/-! Claim C7. -/

/-- C7: a stream only ever returns a local result with at least one
success and one failure, and whenever the whole simulation over
`n_events` streams terminates, the aggregated counts are each at least
`n_events` (hence nonzero when `n_events >= 1`). -/
theorem c7_streams_guarantee_both_outcomes (outcomes : Nat → Nat → Bool)
    (n_events fuel : Nat) (R : SimulationResult)
    (hrun : simulate_until_n_events_are_found outcomes n_events fuel = some R) :
    n_events ≤ R.n_successes ∧ n_events ≤ R.n_failures ∧
      (1 ≤ n_events → R.n_successes ≠ 0 ∧ R.n_failures ≠ 0) ∧
      ∀ i fuel2 r, simulate_thread_until_one_event_is_found (outcomes i) fuel2 = some r →
        1 ≤ r.n_successes ∧ 1 ≤ r.n_failures := by
  rw [simulate_until_n_events_are_found] at hrun
  cases hc : collectThreadResults outcomes fuel n_events with
  | none =>
    rw [hc] at hrun
    simp at hrun
  | some rs =>
    rw [hc] at hrun
    simp only [Option.map_some', Option.some.injEq] at hrun
    obtain ⟨hlen, hall⟩ := collectThreadResults_some outcomes fuel n_events rs hc
    have hsucc : rs.length ≤ (rs.map SimulationResult.n_successes).sum :=
      length_le_sum_of_ge_one rs (fun r hr => (hall r hr).1)
    have hfail : rs.length ≤ (rs.map SimulationResult.n_failures).sum :=
      length_le_sum_of_ge_one rs (fun r hr => (hall r hr).2)
    have h1 : n_events ≤ R.n_successes := by
      rw [← hrun]
      simpa [hlen] using hsucc
    have h2 : n_events ≤ R.n_failures := by
      rw [← hrun]
      simpa [hlen] using hfail
    refine ⟨h1, h2, fun hne => ⟨by omega, by omega⟩, ?_⟩
    intro i fuel2 r hr
    exact simulateThread_some fuel2 0 SimulationResult.new r hr

/-- C7, witness: two streams of alternating outcomes finish within fuel
3 and aggregate to two successes and two failures. -/
theorem c7_witness :
    simulate_until_n_events_are_found (fun _ t => t % 2 == 0) 2 3 =
        some ⟨2, 2⟩ ∧ (2 : Nat) ≤ 2 := by
  have h0 : simulate_until_n_events_are_found (fun _ t => t % 2 == 0) 2 3 =
      some ⟨2, 2⟩ := by decide
  obtain ⟨h1, -, -, -⟩ := c7_streams_guarantee_both_outcomes (fun _ t => t % 2 == 0) 2 3 ⟨2, 2⟩ h0
  exact ⟨h0, h1⟩

/-! Claim C8. -/

/-- C8: construction through `with_n_bits(n).with_checks` fails exactly
when some check holds a bit index `>= n` (the panic happens at
construction, modelled as `none`), and on success every stored bit index
is `< n`. -/
theorem c8_with_checks_oob_iff (n : Nat) (checks : List (List Nat)) :
    ((ParityCheckMatrix.with_n_bits n).with_checks checks = none ↔
      ∃ c ∈ checks, ∃ b ∈ c, n ≤ b) ∧
    ∀ m, (ParityCheckMatrix.with_n_bits n).with_checks checks = some m →
      ∀ b ∈ m.bit_indices, b < n := by
  constructor
  · rw [ParityCheckMatrix.with_checks]
    by_cases h : (ParityCheckMatrix.with_n_bits n).some_checks_oob checks = true
    · rw [if_pos h]
      simp only [true_iff]
      simpa [ParityCheckMatrix.some_checks_oob, ParityCheckMatrix.is_oob_check,
        List.any_eq_true, ParityCheckMatrix.with_n_bits] using h
    · rw [if_neg h]
      simp only [reduceCtorEq, false_iff]
      intro hex
      apply h
      simpa [ParityCheckMatrix.some_checks_oob, ParityCheckMatrix.is_oob_check,
        List.any_eq_true, ParityCheckMatrix.with_n_bits] using hex
  · intro m hm b hb
    rw [ParityCheckMatrix.with_checks] at hm
    by_cases h : (ParityCheckMatrix.with_n_bits n).some_checks_oob checks = true
    · rw [if_pos h] at hm
      exact absurd hm (by simp)
    · rw [if_neg h] at hm
      have hm' : m = (ParityCheckMatrix.with_n_bits n).setChecks checks := by
        have := hm.symm
        simpa using this
      subst hm'
      have hbound : ∀ c ∈ checks, ∀ x ∈ c, x < n := by
        intro c hc x hx
        by_contra hge
        apply h
        simp only [ParityCheckMatrix.some_checks_oob, ParityCheckMatrix.is_oob_check,
          List.any_eq_true, ParityCheckMatrix.with_n_bits]
        exact ⟨c, hc, x, hx, by simpa using Nat.le_of_not_lt hge⟩
      cases checks with
      | nil =>
        rw [ParityCheckMatrix.setChecks] at hb
        simp [ParityCheckMatrix.with_n_bits] at hb
      | cons c0 cs0 =>
        rw [ParityCheckMatrix.setChecks_eq _ (by simp)] at hb
        simp only at hb
        obtain ⟨l, hl, hbl⟩ := List.mem_flatten.mp hb
        obtain ⟨c, hc, rfl⟩ := List.mem_map.mp hl
        exact hbound c hc b (mem_sortList.mp hbl)

/-- C8, witness: an out-of-bounds check is rejected and a legal
construction stores only in-bounds indices. -/
theorem c8_witness :
    (ParityCheckMatrix.with_n_bits 3).with_checks [[0, 1], [1, 4]] = none ∧
    (1 : Nat) < 3 := by
  constructor
  · exact (c8_with_checks_oob_iff 3 [[0, 1], [1, 4]]).1.mpr
      ⟨[1, 4], by decide, 4, by decide, by omega⟩
  · have hm : (ParityCheckMatrix.with_n_bits 3).with_checks [[0, 1], [1, 2]] =
        some (ParityCheckMatrix.buildMatrix 3 [[0, 1], [1, 2]]) := by decide
    exact (c8_with_checks_oob_iff 3 [[0, 1], [1, 2]]).2 _ hm 1 (by decide)

/-! Claim C9. -/

/-- C9, counterexample: NaN lies outside the interval [0,1], yet
`with_prob` accepts it because both IEEE comparisons with NaN are false;
so "fails iff p is outside [0,1]" is refuted over the f64 domain. -/
theorem c9_counterexample :
    ¬ inUnitInterval f64nan ∧ ErasureDecoder.with_prob f64nan ≠ none := by
  constructor
  · intro h
    exact h
  · intro h
    simp [ErasureDecoder.with_prob, f64lt, f64gt, f64nan] at h

/-- C9, amended: `with_prob p` fails iff `p` is an actual (non-NaN)
number outside [0,1]; every other value, NaN included, yields a decoder
carrying `p` as its erasure probability. -/
theorem c9_with_prob_fails_iff (p : F64) :
    (ErasureDecoder.with_prob p = none ↔ isFiniteOutside p) ∧
      (¬ isFiniteOutside p →
        ErasureDecoder.with_prob p = some ⟨ParityCheckMatrix.new, p⟩) := by
  cases p with
  | none =>
    refine ⟨⟨fun h => ?_, fun h => absurd h (fun hf => hf)⟩, fun _ => rfl⟩
    simp [ErasureDecoder.with_prob, f64lt, f64gt] at h
  | some q =>
    by_cases h : q < 0 ∨ 1 < q
    · have hcond : (f64lt (some q) (some 0) || f64gt (some q) (some 1)) = true := by
        simp only [f64lt, f64gt, Bool.or_eq_true, decide_eq_true_eq]
        exact h
      constructor
      · constructor
        · intro _
          exact h
        · intro _
          rw [ErasureDecoder.with_prob, hcond]
          rfl
      · intro hn
        exact absurd h hn
    · have hcond : (f64lt (some q) (some 0) || f64gt (some q) (some 1)) = false := by
        push_neg at h
        simp only [f64lt, f64gt, Bool.or_eq_false_iff, decide_eq_false_iff_not]
        exact ⟨not_lt.mpr h.1, not_lt.mpr h.2⟩
      constructor
      · constructor
        · intro hnone
          rw [ErasureDecoder.with_prob, hcond] at hnone
          exact absurd hnone (by simp)
        · intro hout
          exact absurd hout h
      · intro _
        rw [ErasureDecoder.with_prob, hcond]
        rfl

/-- C9, witness at the in-range probability one half. -/
theorem c9_witness :
    ErasureDecoder.with_prob (some (1 / 2)) =
      some ⟨ParityCheckMatrix.new, some (1 / 2)⟩ := by
  have h := (c9_with_prob_fails_iff (some (1 / 2))).2
  apply h
  intro hout
  have : (1 : ℚ) / 2 < 0 ∨ 1 < (1 : ℚ) / 2 := hout
  rcases this with h1 | h1 <;> norm_num at h1

/-! Claim C10. -/

/-- C10: `keep` preserves the declared bit count and the logical check
count (an emptied check still occupies its row), and each resulting
check is the membership-filtered original check. -/
theorem c10_keep_frame (m : ParityCheckMatrix) (bits : List Nat)
    (hs : ∀ c ∈ m.checksOf, List.Sorted (· ≤ ·) c) :
    (m.keep bits).get_n_bits = m.get_n_bits ∧
      (m.keep bits).get_n_checks = m.get_n_checks ∧
      ∀ i, (m.keep bits).getCheckD i =
        (m.getCheckD i).filter (fun bit => bits.contains bit) :=
  ⟨ParityCheckMatrix.n_bits_keep m bits, ParityCheckMatrix.get_n_checks_keep m bits,
    fun i => ParityCheckMatrix.getCheckD_keep_of_sorted m bits i hs⟩

/-- C10, witness at the `keep` doc-test matrix: a check emptied by the
projection (none here) would still count; concretely the counts and one
filtered check are checked. -/
theorem c10_witness :
    ((ParityCheckMatrix.buildMatrix 5 [[0, 1, 2], [2, 3, 4], [0, 2, 4], [1, 3]]).keep
        [0, 1, 4]).get_n_bits = 5 ∧
      ((ParityCheckMatrix.buildMatrix 5 [[0, 1, 2], [2, 3, 4], [0, 2, 4], [1, 3]]).keep
        [0, 1, 4]).get_n_checks = 4 ∧
      ((ParityCheckMatrix.buildMatrix 5 [[0, 1, 2], [2, 3, 4], [0, 2, 4], [1, 3]]).keep
        [0, 1, 4]).getCheckD 1 = [4] := by
  obtain ⟨h1, h2, h3⟩ := c10_keep_frame
    (ParityCheckMatrix.buildMatrix 5 [[0, 1, 2], [2, 3, 4], [0, 2, 4], [1, 3]])
    [0, 1, 4] (by decide)
  exact ⟨h1.trans (by decide), h2.trans (by decide), (h3 1).trans (by decide)⟩

end Believer
